import Mathlib

/-!
Verification of the Quanlse computational core: the time-dependent Hamiltonian
model, the piecewise-constant dynamics simulator, the waveform sampler, the
computational-subspace projector and the gate-infidelity scorer.

The repository ships the core as a library consumed by the tutorial notebooks;
the notebooks only call `createHam`, `addDrift`, `addCoupling`, `addControl`,
`setWave`/`makeWaveData`, `simulate`, `project` and `unitaryInfidelity`.  The
library functions themselves are therefore modelled here from the written
specification, except where the tutorial call sites pin down a calling
convention (notably the third argument of `unitaryInfidelity`, which the
tutorials pass as the number of qubits).
-/

open scoped Matrix

namespace Quanlse

noncomputable section

/-! ### Flat (numpy-style) matrices for the projector and scorer -/

/-- Modelled from the spec: a dynamically sized square complex matrix, the
shape the (missing) `Quanlse.Utils.Tools` functions receive as numpy arrays.
`entry i j` is only meaningful for `i, j < dim`. -/
structure NMat where
  dim : ℕ
  entry : ℕ → ℕ → ℂ

/-- Modelled from the spec: conjugate transpose of a flat matrix. -/
def NMat.dagger (A : NMat) : NMat :=
  ⟨A.dim, fun i j => star (A.entry j i)⟩

/-- Modelled from the spec: matrix product of two flat matrices (the left
factor's dimension fixes the contraction range, as for square numpy inputs). -/
def NMat.mul (A B : NMat) : NMat :=
  ⟨A.dim, fun i j => ∑ k ∈ Finset.range A.dim, A.entry i k * B.entry k j⟩

/-- Modelled from the spec: trace of a flat matrix. -/
def NMat.trace (A : NMat) : ℂ :=
  ∑ i ∈ Finset.range A.dim, A.entry i i

/-- Modelled from the spec: `A` is unitary when `A† A` is the identity on the
meaningful index range. -/
def NMat.IsUnitary (A : NMat) : Prop :=
  ∀ i j, i < A.dim → j < A.dim →
    (A.dagger.mul A).entry i j = if i = j then 1 else 0

/-- Modelled from the spec: the level occupied by subsystem `j` in basis state
`x`, for the lexicographic basis ordering with the least-significant subsystem
varying fastest (subsystem `j` has stride `sysLevel ^ j`). -/
def digit (sysLevel j x : ℕ) : ℕ :=
  x / sysLevel ^ j % sysLevel

/-- Modelled from the spec: the ordered index set of basis states in which
every subsystem occupies a level strictly below `toLevel`, out of the
`sysLevel ^ qubitNum` global basis states, in their original relative order. -/
def compIndices (qubitNum sysLevel toLevel : ℕ) : List ℕ :=
  (List.range (sysLevel ^ qubitNum)).filter
    (fun x => decide (∀ j, j < qubitNum → digit sysLevel j x < toLevel))

/-- Modelled from the spec: `project` restricts a global unitary to the rows
and columns indexed by `compIndices`, preserving their relative order.  This
is the missing `Quanlse.Utils.Tools.project`. -/
def project (U : NMat) (qubitNum sysLevel toLevel : ℕ) : NMat :=
  ⟨(compIndices qubitNum sysLevel toLevel).length,
   fun i j => U.entry ((compIndices qubitNum sysLevel toLevel).getD i 0)
                      ((compIndices qubitNum sysLevel toLevel).getD j 0)⟩

/-- Modelled from the spec: the error taxonomy of the core (only the members
exercised by the claims are listed). -/
inductive QErr where
  | DimensionMismatch
  | InvalidDimension
  deriving DecidableEq

/-- Modelled from the spec: recover the per-subsystem truncation level from
the dimension of a simulated unitary — the smallest level `ℓ ≥ 2` with
`ℓ ^ qubitNum = dim`, or `none` when the dimension is incompatible with a
register of `qubitNum` subsystems. -/
def levelOf (dim qubitNum : ℕ) : Option ℕ :=
  ((List.range dim).map (fun i => i + 2)).find? (fun ℓ => ℓ ^ qubitNum == dim)

/-- Modelled from the spec: the missing `Quanlse.Utils.Tools.unitaryInfidelity`,
computing `1 - (1/d)·|Tr(uGoal† · P(uReal))|`.  The third argument is the
number of qubits (the tutorial call sites pass `1` together with a `2×2` goal
and a `3×3` simulated unitary), so `d = 2 ^ qubitNum` and `uReal` is projected
onto the lowest two levels of each subsystem. -/
def unitaryInfidelity (uGoal uReal : NMat) (qubitNum : ℕ) : Except QErr ℝ :=
  if uGoal.dim = 2 ^ qubitNum then
    match levelOf uReal.dim qubitNum with
    | some ℓ =>
        Except.ok (1 - Complex.abs ((uGoal.dagger.mul (project uReal qubitNum ℓ 2)).trace)
          / (2 ^ qubitNum : ℝ))
    | none => Except.error QErr.DimensionMismatch
  else Except.error QErr.DimensionMismatch

/-! ### Waveform sampling -/

/-- Modelled from the spec: the number of samples of the time grid,
`N = round(t / samplePeriod)`. -/
def sampleCount (t samplePeriod : ℝ) : ℕ :=
  (round (t / samplePeriod)).toNat

/-- Modelled from the spec: the sampler behind `setWave`/`makeWaveData` — an
ordered sequence of `sampleCount t samplePeriod` scalar samples of the
waveform function, sample `k` taken at time `t0 + k·samplePeriod`. -/
def sampleWave {P : Type*} (f : ℝ → P → ℝ) (para : P) (t0 t samplePeriod : ℝ) : List ℝ :=
  (List.range (sampleCount t samplePeriod)).map
    (fun k : ℕ => f (t0 + (k : ℝ) * samplePeriod) para)

/-! ### Operator library -/

/-- Modelled from the spec: `number(n)`, the diagonal occupation-number
operator with entries `0, 1, …, n-1`. -/
def number (n : ℕ) : Matrix (Fin n) (Fin n) ℂ :=
  Matrix.diagonal fun k => ((k : ℕ) : ℂ)

/-- Modelled from the spec: `duff(n)`, the diagonal anharmonicity operator
with entries `k(k-1)` for level index `k`. -/
def duff (n : ℕ) : Matrix (Fin n) (Fin n) ℂ :=
  Matrix.diagonal fun k => (((k : ℕ) * ((k : ℕ) - 1) : ℕ) : ℂ)

/-- Modelled from the spec: the truncated annihilation operator, with
`destroy i (i+1) = √(i+1)` on the superdiagonal. -/
def destroy (n : ℕ) : Matrix (Fin n) (Fin n) ℂ :=
  Matrix.of fun i j => if (i : ℕ) + 1 = (j : ℕ) then (Real.sqrt ((i : ℕ) + 1) : ℂ) else 0

/-- Modelled from the spec: the truncated creation operator, the adjoint of
`destroy`. -/
def create (n : ℕ) : Matrix (Fin n) (Fin n) ℂ :=
  (destroy n)ᴴ

/-- Modelled from the spec: `driveX(n) = (create + destroy) / 2`. -/
def driveX (n : ℕ) : Matrix (Fin n) (Fin n) ℂ :=
  (2 : ℂ)⁻¹ • (create n + destroy n)

/-- Modelled from the spec: `driveY(n) = i·(create − destroy) / 2`. -/
def driveY (n : ℕ) : Matrix (Fin n) (Fin n) ℂ :=
  (2 : ℂ)⁻¹ • (Complex.I • (create n - destroy n))

/-! ### Hamiltonian model and dynamics simulator

Basis states of the register of `q` subsystems with `ℓ` levels each are
indexed by level tuples `Fin q → Fin ℓ`, the tensor-product basis. -/

/-- Modelled from the spec: global square matrices on the full Hilbert space
of a register of `q` subsystems truncated at `ℓ` levels. -/
abbrev GMat (q ℓ : ℕ) := Matrix (Fin q → Fin ℓ) (Fin q → Fin ℓ) ℂ

/-- Modelled from the spec: a local operator embedded on subsystem `j`, acting
as the identity on every other subsystem. -/
def embed {q ℓ : ℕ} (M : Matrix (Fin ℓ) (Fin ℓ) ℂ) (j : Fin q) : GMat q ℓ :=
  Matrix.of fun x y => if ∀ i, i ≠ j → x i = y i then M (x j) (y j) else 0

/-- Modelled from the spec: two local operators embedded jointly on the
distinct subsystems `j1` and `j2`, the identity elsewhere. -/
def embed2 {q ℓ : ℕ} (M N : Matrix (Fin ℓ) (Fin ℓ) ℂ) (j1 j2 : Fin q) : GMat q ℓ :=
  Matrix.of fun x y =>
    if ∀ i, i ≠ j1 → i ≠ j2 → x i = y i then M (x j1) (y j1) * N (x j2) (y j2) else 0

/-- Modelled from the spec: the symmetric exchange coupling operator — raise
one subsystem and lower the other, plus the Hermitian conjugate. -/
def couplingOp {q ℓ : ℕ} (j1 j2 : Fin q) : GMat q ℓ :=
  embed2 (create ℓ) (destroy ℓ) j1 j2 + embed2 (destroy ℓ) (create ℓ) j1 j2

/-- Modelled from the spec: the three kinds of Hamiltonian terms.  A control
term carries its attached sampled waveform (empty when the channel was
registered via `addControl` and never received a waveform). -/
inductive HamTerm (q ℓ : ℕ) where
  | drift (onQubit : Fin q) (matrices : Matrix (Fin ℓ) (Fin ℓ) ℂ) (amp : ℝ)
  | coupling (onQubit1 onQubit2 : Fin q) (g : ℝ)
  | control (onQubit : Fin q) (matrices : Matrix (Fin ℓ) (Fin ℓ) ℂ) (seq : List ℝ)

/-- Modelled from the spec: the scalar coefficient of a term at time step `k`:
the amplitude for a drift, the strength for a coupling, and the waveform
sample at index `k` for a control (`0` once the sequence is exhausted, in
particular always `0` for a channel with no waveform attached). -/
def HamTerm.ampAt {q ℓ : ℕ} : HamTerm q ℓ → ℕ → ℝ
  | .drift _ _ a, _ => a
  | .coupling _ _ g, _ => g
  | .control _ _ s, k => s.getD k 0

/-- Modelled from the spec: the global-embedded operator of a term. -/
def HamTerm.globalOp {q ℓ : ℕ} : HamTerm q ℓ → GMat q ℓ
  | .drift j M _ => embed M j
  | .coupling j1 j2 _ => couplingOp j1 j2
  | .control j M _ => embed M j

/-- Modelled from the spec: a term's contribution to the instantaneous global
Hamiltonian at step `k`. -/
def HamTerm.opAt {q ℓ : ℕ} (t : HamTerm q ℓ) (k : ℕ) : GMat q ℓ :=
  ((t.ampAt k : ℝ) : ℂ) • t.globalOp

/-- Modelled from the spec: the term operators a valid model carries — the
Hermiticity invariant on drift and control operators (couplings are symmetric
exchange terms by construction). -/
def HamTerm.ValidOps {q ℓ : ℕ} : HamTerm q ℓ → Prop
  | .drift _ M _ => M.IsHermitian
  | .coupling _ _ _ => True
  | .control _ M _ => M.IsHermitian

/-- Modelled from the spec: the Hamiltonian model — the sampling period and
the name-keyed collection of additive terms over the register. -/
structure Model (q ℓ : ℕ) where
  dt : ℝ
  terms : List (String × HamTerm q ℓ)

/-- Modelled from the spec: the instantaneous global Hamiltonian at step `k`,
the sum of every term's global-embedded operator times its coefficient. -/
def stepH {q ℓ : ℕ} (m : Model q ℓ) (k : ℕ) : GMat q ℓ :=
  (m.terms.map fun p => p.2.opAt k).sum

/-- Modelled from the spec: the step propagator `U_k = exp(-i·H_k·dt)`. -/
def stepU {q ℓ : ℕ} (m : Model q ℓ) (k : ℕ) : GMat q ℓ :=
  NormedSpace.exp ℂ ((-Complex.I * (m.dt : ℂ)) • stepH m k)

/-- Modelled from the spec: the missing `simulate` — the total evolution after
`n` steps, starting from the identity and accumulating `U_total := U_k·U_total`. -/
def simulate {q ℓ : ℕ} (m : Model q ℓ) : ℕ → GMat q ℓ
  | 0 => 1
  | k + 1 => stepU m k * simulate m k

/-! ### Concrete instances used by witnesses and counterexamples -/

/-- Identity flat matrix of dimension `n`. -/
def idN (n : ℕ) : NMat :=
  ⟨n, fun i j => if i = j then 1 else 0⟩

/-- Single-qubit two-level model with one Hermitian drift term. -/
def mDrift : Model 1 2 :=
  ⟨1, [("q0-detuning", HamTerm.drift 0 (number 2) 0.5)]⟩

/-- Single-qubit three-level model with one waveform-less control channel. -/
def mCtrl : Model 1 3 :=
  ⟨0.5, [("q0-ctrlz", HamTerm.control 0 (number 3) [])]⟩

/-- Single-qubit three-level model with only a duffing drift term. -/
def mDuff : Model 1 3 :=
  ⟨1, [("drift", HamTerm.drift 0 (duff 3) 2)]⟩

/-- Basis state of the single three-level subsystem at level 2. -/
def s2 : Fin 1 → Fin 3 := fun _ => 2

/-! ### Hermiticity of the assembled Hamiltonian -/

theorem embed_conjTranspose {q ℓ : ℕ} (M : Matrix (Fin ℓ) (Fin ℓ) ℂ) (j : Fin q) :
    (embed M j)ᴴ = embed Mᴴ j := by
  ext x y
  simp only [Matrix.conjTranspose_apply, embed, Matrix.of_apply]
  by_cases h : ∀ i, i ≠ j → x i = y i
  · rw [if_pos h, if_pos fun i hi => (h i hi).symm]
  · rw [if_neg h, if_neg fun hc => h fun i hi => (hc i hi).symm, star_zero]

theorem embed2_conjTranspose {q ℓ : ℕ} (M N : Matrix (Fin ℓ) (Fin ℓ) ℂ) (j1 j2 : Fin q) :
    (embed2 M N j1 j2)ᴴ = embed2 Mᴴ Nᴴ j1 j2 := by
  ext x y
  simp only [Matrix.conjTranspose_apply, embed2, Matrix.of_apply]
  by_cases h : ∀ i, i ≠ j1 → i ≠ j2 → x i = y i
  · rw [if_pos h, if_pos fun i h1 h2 => (h i h1 h2).symm, star_mul, mul_comm]
  · rw [if_neg h, if_neg fun hc => h fun i h1 h2 => (hc i h1 h2).symm, star_zero]

theorem couplingOp_isHermitian {q ℓ : ℕ} (j1 j2 : Fin q) :
    (couplingOp j1 j2 : GMat q ℓ).IsHermitian := by
  unfold Matrix.IsHermitian couplingOp
  rw [Matrix.conjTranspose_add, embed2_conjTranspose, embed2_conjTranspose, create,
    Matrix.conjTranspose_conjTranspose, add_comm]

theorem opAt_isHermitian {q ℓ : ℕ} (t : HamTerm q ℓ) (h : t.ValidOps) (k : ℕ) :
    (t.opAt k).IsHermitian := by
  have hglob : t.globalOp.IsHermitian := by
    cases t with
    | drift j M a => simpa [HamTerm.globalOp, Matrix.IsHermitian, embed_conjTranspose,
        HamTerm.ValidOps] using congrArg (fun X => embed X j) h
    | coupling j1 j2 g => exact couplingOp_isHermitian j1 j2
    | control j M s => simpa [HamTerm.globalOp, Matrix.IsHermitian, embed_conjTranspose,
        HamTerm.ValidOps] using congrArg (fun X => embed X j) h
  unfold HamTerm.opAt Matrix.IsHermitian
  rw [Matrix.conjTranspose_smul, hglob]
  congr 1
  simp [Complex.star_def, Complex.conj_ofReal]

theorem listSum_isHermitian {q ℓ : ℕ} (L : List (GMat q ℓ))
    (h : ∀ A ∈ L, A.IsHermitian) : L.sum.IsHermitian := by
  induction L with
  | nil =>
      rw [List.sum_nil]
      exact Matrix.isHermitian_zero
  | cons A L ih =>
      rw [List.sum_cons]
      exact (h A (List.mem_cons_self A L)).add (ih fun B hB => h B (List.mem_cons_of_mem A hB))

theorem stepH_isHermitian {q ℓ : ℕ} (m : Model q ℓ)
    (h : ∀ p ∈ m.terms, HamTerm.ValidOps p.2) (k : ℕ) : (stepH m k).IsHermitian := by
  refine listSum_isHermitian _ fun A hA => ?_
  rcases List.mem_map.mp hA with ⟨p, hp, rfl⟩
  exact opAt_isHermitian p.2 (h p hp) k

theorem stepU_unitary {q ℓ : ℕ} (m : Model q ℓ) (k : ℕ)
    (h : (stepH m k).IsHermitian) : (stepU m k)ᴴ * stepU m k = 1 := by
  set A : GMat q ℓ := (-Complex.I * (m.dt : ℂ)) • stepH m k with hA
  have hAH : Aᴴ = -A := by
    rw [hA, Matrix.conjTranspose_smul, h]
    rw [← neg_smul]
    congr 1
    simp [Complex.ext_iff]
  unfold stepU
  rw [← hA, ← Matrix.exp_conjTranspose, hAH,
    ← Matrix.exp_add_of_commute ℂ (-A) A (Commute.neg_left (Commute.refl A))]
  simp [NormedSpace.exp_zero]

theorem simulate_unitary_of_hermitian {q ℓ : ℕ} (m : Model q ℓ)
    (h : ∀ k, (stepH m k).IsHermitian) (n : ℕ) : (simulate m n)ᴴ * simulate m n = 1 := by
  induction n with
  | zero => simp [simulate]
  | succ k ih =>
      have hs := stepU_unitary m k (h k)
      calc (simulate m (k + 1))ᴴ * simulate m (k + 1)
          = (simulate m k)ᴴ * ((stepU m k)ᴴ * stepU m k) * simulate m k := by
            simp only [simulate, Matrix.conjTranspose_mul, Matrix.mul_assoc]
        _ = 1 := by rw [hs, Matrix.mul_one, ih]

theorem number_isHermitian (n : ℕ) : (number n).IsHermitian := by
  rw [number, Matrix.isHermitian_diagonal_iff]
  intro k
  simp [isSelfAdjoint_iff, Complex.star_def, Complex.conj_natCast]

theorem duff_isHermitian (n : ℕ) : (duff n).IsHermitian := by
  rw [duff, Matrix.isHermitian_diagonal_iff]
  intro k
  simp [isSelfAdjoint_iff, Complex.star_def, Complex.conj_natCast]

/-! ### Claims about the dynamics simulator -/

/-- C2: the simulator returns `U_total = U_{N-1} ⋯ U_1 U_0`, where each step
propagator is `U_k = exp(-i·H_k·dt)` and `H_k` is the sum of drift
global-embedded operators times amplitudes, coupling global-embedded
operators times strengths, and control global-embedded operators times
their sample at index `k` (`0` when the sequence is exhausted); `U_total`
starts from the identity and accumulates as `U_total := U_k · U_total`. -/
theorem simulate_eq_ordered_prod {q ℓ : ℕ} (m : Model q ℓ) (N : ℕ) :
    simulate m N =
      (((List.range N).map fun k =>
        NormedSpace.exp ℂ ((-Complex.I * (m.dt : ℂ)) •
          ((m.terms.map fun p =>
            match p.2 with
            | HamTerm.drift j M a => ((a : ℝ) : ℂ) • embed M j
            | HamTerm.coupling j1 j2 g => ((g : ℝ) : ℂ) • couplingOp j1 j2
            | HamTerm.control j M s => ((s.getD k 0 : ℝ) : ℂ) • embed M j).sum))).reverse).prod := by
  have hmap : ∀ k : ℕ,
      (m.terms.map fun p =>
        (match p.2 with
        | HamTerm.drift j M a => ((a : ℝ) : ℂ) • embed M j
        | HamTerm.coupling j1 j2 g => ((g : ℝ) : ℂ) • couplingOp j1 j2
        | HamTerm.control j M s => ((s.getD k 0 : ℝ) : ℂ) • embed M j : GMat q ℓ)) =
      m.terms.map fun p => p.2.opAt k := by
    intro k
    refine List.map_congr_left ?_
    rintro ⟨nm, t⟩ _
    cases t <;> rfl
  induction N with
  | zero => simp [simulate]
  | succ n ih =>
      rw [List.range_succ]
      simp only [List.map_append, List.map_cons, List.map_nil, List.reverse_append,
        List.reverse_cons, List.reverse_nil, List.nil_append, List.cons_append, List.prod_cons]
      rw [← ih, hmap n]
      rfl

attribute [local instance] Matrix.normedAddCommGroup

/-- C3: for every Hamiltonian model satisfying the Hermiticity invariant on
its term operators and any number of steps, the simulated total evolution is
exactly unitary, hence `‖U_total† · U_total − 1‖ < 1e-6` (and in particular
within the `1e-8` in-test tolerance; here the defect is exactly `0`). -/
theorem simulate_unitary {q ℓ : ℕ} (m : Model q ℓ) (N : ℕ)
    (h : ∀ p ∈ m.terms, HamTerm.ValidOps p.2) :
    (simulate m N)ᴴ * simulate m N = 1 ∧
      ‖(simulate m N)ᴴ * simulate m N - 1‖ < 1e-6 := by
  have h1 := simulate_unitary_of_hermitian m (fun k => stepH_isHermitian m h k) N
  refine ⟨h1, ?_⟩
  rw [h1, sub_self, norm_zero]
  norm_num

/-- Witness for C3 at a concrete one-qubit model with a Hermitian drift. -/
theorem simulate_unitary_witness :
    (simulate mDrift 3)ᴴ * simulate mDrift 3 = 1 :=
  (simulate_unitary mDrift 3 (by
    intro p hp
    rw [mDrift, List.mem_singleton] at hp
    subst hp
    exact number_isHermitian 2)).1

/-- C5: a model with no drift or coupling terms whose control channels all
contribute zero amplitude at every step (in particular channels registered
with no waveform attached) simulates to the identity on the full Hilbert
space, for any number of steps and any sample period. -/
theorem simulate_zero_controls_eq_one {q ℓ : ℕ} (m : Model q ℓ) (N : ℕ)
    (h : ∀ p ∈ m.terms, ∃ j M s, p.2 = HamTerm.control j M s ∧ ∀ k, s.getD k 0 = 0) :
    simulate m N = 1 := by
  have hU : ∀ k, stepU m k = 1 := by
    intro k
    have hH : stepH m k = 0 := by
      unfold stepH
      refine List.sum_eq_zero ?_
      intro A hA
      rcases List.mem_map.mp hA with ⟨p, hp, rfl⟩
      rcases h p hp with ⟨j, M, s, hps, hs⟩
      rw [hps, HamTerm.opAt]
      rw [show HamTerm.ampAt (HamTerm.control j M s) k = s.getD k 0 from rfl, hs k]
      simp
    rw [stepU, hH, smul_zero, NormedSpace.exp_zero]
  induction N with
  | zero => rfl
  | succ n ih => rw [simulate, hU n, ih, one_mul]

/-- Witness for C5 at a one-qubit model whose only term is a control channel
with no waveform attached. -/
theorem simulate_zero_controls_eq_one_witness : simulate mCtrl 4 = 1 :=
  simulate_zero_controls_eq_one mCtrl 4 (by
    intro p hp
    rw [mCtrl, List.mem_singleton] at hp
    subst hp
    exact ⟨0, number 3, [], rfl, fun k => List.getD_nil⟩)

theorem embed_diagonal_one {ℓ : ℕ} (v : Fin ℓ → ℂ) (j : Fin 1) :
    embed (Matrix.diagonal v) j =
      Matrix.diagonal (fun x : Fin 1 → Fin ℓ => v (x j)) := by
  ext x y
  simp only [embed, Matrix.of_apply]
  rw [if_pos fun i hi => absurd (Subsingleton.elim i j) hi]
  by_cases hxy : x = y
  · subst hxy
    rw [Matrix.diagonal_apply_eq, Matrix.diagonal_apply_eq]
  · have hne : x j ≠ y j := fun hEq => hxy (funext fun i => by
      rw [Subsingleton.elim i j, hEq])
    rw [Matrix.diagonal_apply_ne _ hne, Matrix.diagonal_apply_ne _ hxy]

/-- C8: a single three-level subsystem whose only term is a drift duffing
term of amplitude `a`, simulated for `N` steps of width `dt` (total duration
`t = N·dt`), evolves to the diagonal unitary with phases
`exp(-i·a·k(k-1)·t)` at level index `k`. -/
theorem simulate_duffing_diagonal (a dt : ℝ) (nm : String) (N : ℕ)
    (x y : Fin 1 → Fin 3) :
    simulate ⟨dt, [(nm, HamTerm.drift 0 (duff 3) a)]⟩ N x y =
      if x = y
      then Complex.exp (-Complex.I * (a : ℂ) *
        (((x 0 : ℕ) * ((x 0 : ℕ) - 1) : ℕ) : ℂ) * ((N : ℂ) * (dt : ℂ)))
      else 0 := by
  set m : Model 1 3 := ⟨dt, [(nm, HamTerm.drift 0 (duff 3) a)]⟩ with hm
  have hU : ∀ k, stepU m k = Matrix.diagonal
      (fun z : Fin 1 → Fin 3 => Complex.exp ((-Complex.I * (dt : ℂ)) *
        ((a : ℂ) * (((z 0 : ℕ) * ((z 0 : ℕ) - 1) : ℕ) : ℂ)))) := by
    intro k
    have hH : stepH m k = Matrix.diagonal
        (fun z : Fin 1 → Fin 3 =>
          (a : ℂ) * (((z 0 : ℕ) * ((z 0 : ℕ) - 1) : ℕ) : ℂ)) := by
      show (((HamTerm.drift (0 : Fin 1) (duff 3) a).opAt k : GMat 1 3) + 0) = _
      rw [add_zero]
      show (a : ℂ) • (HamTerm.drift (0 : Fin 1) (duff 3) a).globalOp = _
      show (a : ℂ) • embed (duff 3) 0 = _
      rw [duff, embed_diagonal_one, ← Matrix.diagonal_smul]
      exact congrArg Matrix.diagonal (funext fun z => rfl)
    rw [stepU, hH, ← Matrix.diagonal_smul, Matrix.exp_diagonal, Pi.exp_def,
      Complex.exp_eq_exp_ℂ]
    exact congrArg Matrix.diagonal (funext fun z => rfl)
  have hSim : ∀ n : ℕ, simulate m n = Matrix.diagonal
      (fun z : Fin 1 → Fin 3 => Complex.exp ((-Complex.I * (dt : ℂ)) *
        ((a : ℂ) * (((z 0 : ℕ) * ((z 0 : ℕ) - 1) : ℕ) : ℂ))) ^ n) := by
    intro n
    induction n with
    | zero =>
        show (1 : GMat 1 3) = _
        rw [← Matrix.diagonal_one]
        exact congrArg Matrix.diagonal (funext fun z => (pow_zero _).symm)
    | succ k ih =>
        rw [simulate, ih, hU k, Matrix.diagonal_mul_diagonal]
        exact congrArg Matrix.diagonal (funext fun z => (pow_succ' _ _).symm)
  rw [hSim N, Matrix.diagonal_apply]
  by_cases hxy : x = y
  · rw [if_pos hxy, if_pos hxy, ← Complex.exp_nat_mul]
    congr 1
    ring
  · rw [if_neg hxy, if_neg hxy]

/-- Witness for C8 at amplitude `2`, unit sample period, five steps,
evaluated at the level-2 diagonal entry. -/
theorem simulate_duffing_diagonal_witness :
    simulate mDuff 5 s2 s2 = Complex.exp (-Complex.I * 2 * 2 * (5 * 1)) := by
  have h := simulate_duffing_diagonal 2 1 "drift" 5 s2 s2
  rw [if_pos rfl] at h
  rw [show mDuff = ⟨1, [("drift", HamTerm.drift 0 (duff 3) 2)]⟩ from rfl, h]
  norm_num [s2]

/-! ### Claims about the waveform sampler -/

/-- C6: the sampler produces exactly `N = round(t / samplePeriod)` ordered
scalar samples, sample `k` being the waveform evaluated at
`t0 + k·samplePeriod` for `k = 0..N-1`. -/
theorem sampleWave_spec {P : Type*} (f : ℝ → P → ℝ) (para : P) (t0 t samplePeriod : ℝ) :
    (sampleWave f para t0 t samplePeriod).length = sampleCount t samplePeriod ∧
    ∀ k, k < sampleCount t samplePeriod →
      (sampleWave f para t0 t samplePeriod).getD k 0 = f (t0 + k * samplePeriod) para := by
  constructor
  · rw [sampleWave, List.length_map, List.length_range]
  · intro k hk
    rw [sampleWave, List.getD_eq_getElem?_getD, List.getElem?_map, List.getElem?_range hk]
    rfl

/-- Witness for C6 on the waveform `t ↦ 2t` over three unit-period samples. -/
theorem sampleWave_spec_witness :
    sampleCount 3 1 = 3 ∧
      (sampleWave (fun x (_ : ℝ) => 2 * x) 0 0 3 1).getD 2 0 = 2 * (0 + (2 : ℕ) * 1) := by
  have hr : round ((3 : ℝ) / 1) = 3 := by norm_num
  have hc : sampleCount 3 1 = 3 := by rw [sampleCount, hr]; rfl
  exact ⟨hc, (sampleWave_spec (fun x (_ : ℝ) => 2 * x) 0 0 3 1).2 2 (by rw [hc]; norm_num)⟩

/-! ### Claims about the subspace projector -/

/-- C4: `project` returns the sub-matrix of `U` restricted to exactly the
rows and columns indexing basis states whose every subsystem level is
strictly below `toLevel`, kept in their original (strictly increasing, i.e.
lexicographic with the least-significant subsystem varying fastest) relative
order. -/
theorem project_spec (U : NMat) (qubitNum sysLevel toLevel : ℕ)
    (_hU : U.dim = sysLevel ^ qubitNum) :
    (project U qubitNum sysLevel toLevel).dim =
        (compIndices qubitNum sysLevel toLevel).length ∧
    (∀ i j, (project U qubitNum sysLevel toLevel).entry i j =
      U.entry ((compIndices qubitNum sysLevel toLevel).getD i 0)
              ((compIndices qubitNum sysLevel toLevel).getD j 0)) ∧
    (∀ x, x ∈ compIndices qubitNum sysLevel toLevel ↔
      x < sysLevel ^ qubitNum ∧ ∀ j, j < qubitNum → digit sysLevel j x < toLevel) ∧
    (compIndices qubitNum sysLevel toLevel).Pairwise (· < ·) := by
  refine ⟨rfl, fun i j => rfl, fun x => ?_, ?_⟩
  · rw [compIndices, List.mem_filter, List.mem_range, decide_eq_true_eq]
  · exact (List.pairwise_lt_range _).sublist (List.filter_sublist _)

/-- Witness for C4 on the 3×3 identity over a one-qubit three-level register:
the projected matrix is 2-dimensional. -/
theorem project_spec_witness :
    (idN 3).dim = 3 ^ 1 ∧ (project (idN 3) 1 3 2).dim = 2 := by
  refine ⟨rfl, ?_⟩
  rw [(project_spec (idN 3) 1 3 2 rfl).1]
  rfl

/-! ### Claims about the infidelity scorer -/

theorem idN_isUnitary (n : ℕ) : (idN n).IsUnitary := by
  intro i j hi hj
  show (∑ k ∈ Finset.range n, star ((idN n).entry k i) * (idN n).entry k j) = _
  rw [Finset.sum_eq_single i]
  · simp [idN]
  · intro b _ hbi
    simp [idN, hbi]
  · intro hmem
    exact absurd (Finset.mem_range.mpr hi) hmem

theorem levelOf_pow_two (q : ℕ) : levelOf (2 ^ q) q = some 2 := by
  have hpos : 0 < 2 ^ q := Nat.pos_pow_of_pos q (by norm_num)
  have hsplit : List.range (2 ^ q) = List.range ((2 ^ q - 1) + 1) := by
    rw [Nat.sub_add_cancel hpos]
  rw [levelOf, hsplit, List.range_succ_eq_map, List.map_cons,
    List.find?_cons_of_pos _ (by simp)]

theorem compIndices_two (q : ℕ) : compIndices q 2 2 = List.range (2 ^ q) := by
  rw [compIndices]
  refine List.filter_eq_self.mpr ?_
  intro x _
  rw [decide_eq_true_eq]
  intro j _
  exact Nat.mod_lt _ (by norm_num)

theorem range_getD {n i : ℕ} (h : i < n) : (List.range n).getD i 0 = i := by
  rw [List.getD_eq_getElem?_getD, List.getElem?_range h]
  rfl

/-- C9 (amended): for every unitary `U` of dimension `2 ^ q` a self-comparison
with the qubit count `q` as third argument is a perfect score:
`unitaryInfidelity U U q = 0`.  (As literally stated — passing the dimension
`d` itself as third argument — the call fails, see the counterexample.) -/
theorem unitaryInfidelity_self_eq_zero (q : ℕ) (U : NMat)
    (hdim : U.dim = 2 ^ q) (hU : U.IsUnitary) :
    unitaryInfidelity U U q = Except.ok 0 := by
  have hlvl : levelOf U.dim q = some 2 := by rw [hdim]; exact levelOf_pow_two q
  have htr : (U.dagger.mul (project U q 2 2)).trace = ((2 ^ q : ℕ) : ℂ) := by
    rw [NMat.trace]
    show (∑ i ∈ Finset.range U.dim, (U.dagger.mul (project U q 2 2)).entry i i) = _
    have hstep : ∀ i ∈ Finset.range U.dim,
        (U.dagger.mul (project U q 2 2)).entry i i = 1 := by
      intro i hi
      have hi2 : i < U.dim := Finset.mem_range.mp hi
      have hent : ∀ k ∈ Finset.range U.dim,
          star (U.entry k i) * (project U q 2 2).entry k i =
          star (U.entry k i) * U.entry k i := by
        intro k hk
        have hk2 : k < U.dim := Finset.mem_range.mp hk
        congr 1
        show U.entry ((compIndices q 2 2).getD k 0) ((compIndices q 2 2).getD i 0) = _
        rw [compIndices_two, range_getD (hdim ▸ hk2), range_getD (hdim ▸ hi2)]
      show (∑ k ∈ Finset.range U.dim,
        star (U.entry k i) * (project U q 2 2).entry k i) = 1
      rw [Finset.sum_congr rfl hent]
      have h1 := hU i i hi2 hi2
      rw [if_pos rfl] at h1
      exact h1
    rw [Finset.sum_congr rfl hstep, Finset.sum_const, Finset.card_range, nsmul_eq_mul,
      mul_one, hdim]
  rw [unitaryInfidelity, if_pos hdim]
  rw [show (match levelOf U.dim q with
      | some ℓ =>
          Except.ok (1 - Complex.abs ((U.dagger.mul (project U q ℓ 2)).trace)
            / (2 ^ q : ℝ))
      | none => (Except.error QErr.DimensionMismatch : Except QErr ℝ)) =
      Except.ok (1 - Complex.abs ((U.dagger.mul (project U q 2 2)).trace)
        / (2 ^ q : ℝ)) from by rw [hlvl]]
  rw [htr, Complex.abs_natCast]
  congr 1
  rw [sub_eq_zero]
  have : ((2 ^ q : ℕ) : ℝ) = (2 ^ q : ℝ) := by push_cast; ring
  rw [this, div_self (by positivity)]

/-- Witness for C9 (amended) at the 2×2 identity with one qubit. -/
theorem unitaryInfidelity_self_eq_zero_witness :
    (idN 2).dim = 2 ^ 1 ∧ unitaryInfidelity (idN 2) (idN 2) 1 = Except.ok 0 :=
  ⟨rfl, unitaryInfidelity_self_eq_zero 1 (idN 2) rfl (idN_isUnitary 2)⟩

/-- Counterexample to C9 as stated: the 2×2 identity is unitary of dimension
`d = 2`, yet `unitaryInfidelity(U, U, 2)` raises `DimensionMismatch`
(the third argument is the qubit count, and `2 ≠ 2 ^ 2`), so it does not
return `0`. -/
theorem unitaryInfidelity_self_dim_counterexample :
    NMat.IsUnitary (idN 2) ∧ (idN 2).dim = 2 ∧
      unitaryInfidelity (idN 2) (idN 2) 2 = Except.error QErr.DimensionMismatch :=
  ⟨idN_isUnitary 2, rfl, rfl⟩

/-- C1 (amended): for a goal unitary of dimension `2 ^ q` and a simulated
unitary whose dimension is compatible with a `q`-subsystem register of some
level `ℓ`, `unitaryInfidelity` returns exactly
`1 - (1/d)·|Tr(uGoal† · P(uReal))|` with `d = 2 ^ q` (the third argument
being the qubit count, not the subspace dimension) and `P` the restriction
to the computational subspace via `project`. -/
theorem unitaryInfidelity_ok_formula (uGoal uReal : NMat) (q ℓ : ℕ)
    (h1 : uGoal.dim = 2 ^ q) (h2 : levelOf uReal.dim q = some ℓ) :
    unitaryInfidelity uGoal uReal q =
      Except.ok (1 - (1 / (2 ^ q : ℝ)) *
        Complex.abs ((uGoal.dagger.mul (project uReal q ℓ 2)).trace)) := by
  rw [unitaryInfidelity, if_pos h1]
  rw [show (match levelOf uReal.dim q with
      | some ℓ =>
          Except.ok (1 - Complex.abs ((uGoal.dagger.mul (project uReal q ℓ 2)).trace)
            / (2 ^ q : ℝ))
      | none => (Except.error QErr.DimensionMismatch : Except QErr ℝ)) =
      Except.ok (1 - Complex.abs ((uGoal.dagger.mul (project uReal q ℓ 2)).trace)
        / (2 ^ q : ℝ)) from by rw [h2]]
  congr 1
  rw [one_div, ← div_eq_inv_mul]

/-- Witness for C1 (amended) at the 2×2 identity goal against the 3×3
identity over a one-qubit three-level register. -/
theorem unitaryInfidelity_ok_formula_witness :
    levelOf (idN 3).dim 1 = some 3 ∧
      unitaryInfidelity (idN 2) (idN 3) 1 =
        Except.ok (1 - (1 / (2 ^ 1 : ℝ)) *
          Complex.abs (((idN 2).dagger.mul (project (idN 3) 1 3 2)).trace)) :=
  ⟨rfl, unitaryInfidelity_ok_formula (idN 2) (idN 3) 1 3 rfl rfl⟩

/-- Counterexample to C1 as stated: with the 1×1 identity goal (dimension
`d = subspaceDim = 1`, a unitary) and the register-compatible 3×3 identity
as simulated unitary, the call raises `DimensionMismatch` instead of
returning the claimed value, because the third argument is interpreted as
the qubit count (`1 ≠ 2 ^ 1`). -/
theorem unitaryInfidelity_subspaceDim_counterexample :
    (idN 1).dim = 1 ∧ NMat.IsUnitary (idN 1) ∧
      unitaryInfidelity (idN 1) (idN 3) 1 = Except.error QErr.DimensionMismatch :=
  ⟨rfl, idN_isUnitary 1, rfl⟩

/-- C7 (amended): `unitaryInfidelity` fails, and fails with
`DimensionMismatch`, exactly when the goal dimension differs from
`2 ^ qubitNum` or no truncation level `ℓ ≥ 2` with `ℓ ^ qubitNum = dim(uReal)`
exists; otherwise it returns a value. -/
theorem unitaryInfidelity_error_iff (uGoal uReal : NMat) (q : ℕ) :
    unitaryInfidelity uGoal uReal q = Except.error QErr.DimensionMismatch ↔
      (uGoal.dim ≠ 2 ^ q ∨ levelOf uReal.dim q = none) := by
  rw [unitaryInfidelity]
  by_cases h1 : uGoal.dim = 2 ^ q
  · rw [if_pos h1]
    cases h2 : levelOf uReal.dim q with
    | none => simp [h1, h2]
    | some ℓ => simp [h1, h2]
  · simp [h1]

/-- Counterexample to C7 as stated: the 2×2 identity goal has dimension
`2 ≠ 1 = subspaceDim`, yet the call with the 3×3 identity succeeds — no
`DimensionMismatch` is raised, because the third argument is the qubit
count. -/
theorem unitaryInfidelity_error_counterexample :
    (idN 2).dim ≠ 1 ∧ ∃ r, unitaryInfidelity (idN 2) (idN 3) 1 = Except.ok r :=
  ⟨by decide, ⟨_, rfl⟩⟩

/-- C10: at the public interface the third argument of `unitaryInfidelity`
is the number of qubits: a call with a 2×2 goal unitary, a full-dimension
(three levels per qubit) simulated unitary and third argument `1` succeeds,
internally projecting the simulated unitary to the lowest two levels and
normalizing the trace by `d = 2 ^ 1`. -/
theorem unitaryInfidelity_qubitNum_interface (uGoal uReal : NMat)
    (h1 : uGoal.dim = 2) (h2 : uReal.dim = 3) :
    unitaryInfidelity uGoal uReal 1 =
      Except.ok (1 - Complex.abs ((uGoal.dagger.mul (project uReal 1 3 2)).trace)
        / (2 ^ 1 : ℝ)) := by
  rw [unitaryInfidelity, if_pos (by rw [h1]; rfl)]
  rw [show levelOf uReal.dim 1 = some 3 from by rw [h2]; rfl]

/-- Witness for C10 at the 2×2 identity goal and 3×3 identity simulated
unitary. -/
theorem unitaryInfidelity_qubitNum_interface_witness :
    unitaryInfidelity (idN 2) (idN 3) 1 =
      Except.ok (1 - Complex.abs (((idN 2).dagger.mul (project (idN 3) 1 3 2)).trace)
        / (2 ^ 1 : ℝ)) :=
  unitaryInfidelity_qubitNum_interface (idN 2) (idN 3) rfl rfl

end

end Quanlse
